import Mathlib

/-!
Verification of the crowd-counting preprocessing pipeline
(`cc_utils/preprocess_shtech.py`): density-map synthesis and tiling.

The Python source is shallowly embedded below.  Machine integers are `ℕ`/`ℤ`,
Python floats are `ℚ` (the numeric claims are about exact arithmetic),
`numpy` arrays are dimension tuples plus total functions, and fallible code
returns `Option`/`Except`.  Python loops with data-dependent exit conditions
are embedded with an explicit fuel argument that is proved sufficient.
-/

namespace CrowdCount

/-- Python's `int()` applied to a float: truncation toward zero. -/
def pyInt (q : ℚ) : ℤ := if q < 0 then ⌈q⌉ else ⌊q⌋

/-- The stride computed by `start_points`: `int(split_size * (1-overlap))`.
For `overlap ≤ 1` the product is non-negative, so truncation is a floor and
`Int.toNat` is exact. -/
def strideOf (split_size : ℕ) (overlap : ℚ) : ℕ :=
  (pyInt ((split_size : ℚ) * (1 - overlap))).toNat

/-- Loop body of `start_points`: `pt = stride*counter`; if `pt+split_size >= size`
append `size - split_size` (nothing when `split_size == size`) and stop, else
append `pt` and continue.  `fuel` bounds the iteration count; it is proved
sufficient wherever the loop is used. -/
def startPointsLoop (size split_size stride : ℕ) : ℕ → ℕ → List ℕ
  | 0, _ => []
  | fuel + 1, counter =>
    let pt := stride * counter
    if size ≤ pt + split_size then
      if split_size = size then [] else [size - split_size]
    else
      pt :: startPointsLoop size split_size stride fuel (counter + 1)

/-- `start_points(size, split_size, overlap)` from the source: the list of
sliding-window offsets along one axis, starting with `0`. -/
def start_points (size split_size : ℕ) (overlap : ℚ) : List ℕ :=
  0 :: startPointsLoop size split_size (strideOf split_size overlap) size 1

/-- The first counter `c` with `stride*c + split_size ≥ size`: the loop
iteration at which `start_points` stops. -/
def stopCounter (size split_size stride : ℕ) : ℕ :=
  (size - split_size - 1) / stride + 1

theorem stopCounter_le (size split_size stride : ℕ) (_hs : 0 < stride)
    (hlt : split_size < size) :
    stopCounter size split_size stride ≤ size := by
  have h1 : (size - split_size - 1) / stride ≤ size - split_size - 1 :=
    Nat.div_le_self _ _
  unfold stopCounter
  omega

theorem stride_stop_ge (size split_size stride : ℕ) (hs : 0 < stride) :
    size ≤ stride * stopCounter size split_size stride + split_size := by
  have hdm := Nat.div_add_mod (size - split_size - 1) stride
  have hmlt : (size - split_size - 1) % stride < stride := Nat.mod_lt _ hs
  have hexp : stride * stopCounter size split_size stride
      = stride * ((size - split_size - 1) / stride) + stride := by
    unfold stopCounter; ring
  omega

theorem stride_pre_lt (size split_size stride : ℕ) (_hs : 0 < stride)
    (hlt : split_size < size) (c : ℕ)
    (hc : c < stopCounter size split_size stride) :
    stride * c + split_size < size := by
  unfold stopCounter at hc
  have hc' : c ≤ (size - split_size - 1) / stride := by omega
  have h1 : stride * c ≤ stride * ((size - split_size - 1) / stride) :=
    Nat.mul_le_mul_left _ hc'
  have hdm := Nat.div_add_mod (size - split_size - 1) stride
  omega

theorem startPointsLoop_eq (size split_size stride : ℕ) (hs : 0 < stride)
    (hlt : split_size < size) :
    ∀ fuel counter, 0 < counter →
      counter ≤ stopCounter size split_size stride →
      stopCounter size split_size stride < counter + fuel →
      startPointsLoop size split_size stride fuel counter =
        (List.range (stopCounter size split_size stride - counter)).map
          (fun i => stride * (counter + i)) ++ [size - split_size] := by
  intro fuel
  induction fuel with
  | zero => intro counter _ h1 h2; omega
  | succ fuel ih =>
    intro counter hc0 hcK hKf
    by_cases hstop : counter = stopCounter size split_size stride
    · subst hstop
      have hge : size ≤ stride * stopCounter size split_size stride + split_size :=
        stride_stop_ge size split_size stride hs
      have hne : split_size ≠ size := Nat.ne_of_lt hlt
      simp only [startPointsLoop]
      rw [if_pos hge, if_neg hne]
      simp
    · have hclt : counter < stopCounter size split_size stride := by omega
      have hlt2 : stride * counter + split_size < size :=
        stride_pre_lt size split_size stride hs hlt counter hclt
      have hnge : ¬ size ≤ stride * counter + split_size := by omega
      simp only [startPointsLoop]
      rw [if_neg hnge, ih (counter + 1) (by omega) (by omega) (by omega)]
      have hrange : stopCounter size split_size stride - counter =
          (stopCounter size split_size stride - (counter + 1)) + 1 := by omega
      have hmap : (List.range (stopCounter size split_size stride - (counter + 1))).map
            (fun i => stride * (counter + 1 + i))
          = (List.range (stopCounter size split_size stride - (counter + 1))).map
            ((fun i => stride * (counter + i)) ∘ Nat.succ) := by
        apply List.map_congr_left
        intro i _
        simp only [Function.comp_apply, Nat.succ_eq_add_one]
        ring
      rw [hrange, List.range_succ_eq_map, List.map_cons, List.map_map, ← hmap]
      simp

theorem strideOf_256_half : strideOf 256 (1/2) = 128 := by
  have h : (((256 : ℕ) : ℚ) * (1 - 1/2)) = ((128 : ℕ) : ℚ) := by norm_num
  rw [strideOf, pyInt, h, if_neg (by norm_num), Int.floor_natCast]
  rfl

theorem start_points_300_256 : start_points 300 256 (1/2) = [0, 44] := by
  unfold start_points
  rw [strideOf_256_half]
  decide

/-- C1. Overlapping-mode offsets: for an axis of length `size > split_size`
and positive stride, `start_points` is exactly `0, stride, 2*stride, …` while
`offset + split_size < size`, with the final offset replaced by
`size - split_size`; every emitted non-final offset is in range and the loop
stops at the first counter whose offset reaches the far edge; when the axis
length equals the tile size only the single offset `0` is produced; and for
`size = 300`, `split_size = 256`, `overlap = 1/2` (stride `128`) the offsets
are exactly `[0, 44]`. -/
theorem start_points_correct (size split_size : ℕ) (overlap : ℚ)
    (hlt : split_size < size) (hs : 0 < strideOf split_size overlap) :
    (start_points size split_size overlap =
      (List.range (stopCounter size split_size (strideOf split_size overlap))).map
        (fun i => strideOf split_size overlap * i) ++ [size - split_size]) ∧
    (∀ i, i < stopCounter size split_size (strideOf split_size overlap) →
      strideOf split_size overlap * i + split_size < size) ∧
    (size ≤ strideOf split_size overlap *
      stopCounter size split_size (strideOf split_size overlap) + split_size) ∧
    (∀ n : ℕ, start_points n n overlap = [0]) ∧
    start_points 300 256 (1/2) = [0, 44] := by
  refine ⟨?_, ?_, ?_, ?_, start_points_300_256⟩
  · unfold start_points
    have hK1 : (1 : ℕ) ≤ stopCounter size split_size (strideOf split_size overlap) :=
      Nat.le_add_left 1 _
    have hKlt : stopCounter size split_size (strideOf split_size overlap) < 1 + size := by
      rw [Nat.add_comm]
      exact Nat.lt_succ_of_le
        (stopCounter_le size split_size (strideOf split_size overlap) hs hlt)
    rw [startPointsLoop_eq size split_size (strideOf split_size overlap) hs hlt
      size 1 Nat.one_pos hK1 hKlt]
    have hrange : stopCounter size split_size (strideOf split_size overlap) =
        (stopCounter size split_size (strideOf split_size overlap) - 1) + 1 := by omega
    have hmap : (List.range (stopCounter size split_size (strideOf split_size overlap) - 1)).map
          (fun i => strideOf split_size overlap * (1 + i))
        = (List.range (stopCounter size split_size (strideOf split_size overlap) - 1)).map
          ((fun i => strideOf split_size overlap * i) ∘ Nat.succ) := by
      apply List.map_congr_left
      intro i _
      simp only [Function.comp_apply, Nat.succ_eq_add_one]
      ring
    rw [hrange, List.range_succ_eq_map, List.map_cons, List.map_map, ← hmap]
    simp
  · exact fun i hi =>
      stride_pre_lt size split_size (strideOf split_size overlap) hs hlt i hi
  · exact stride_stop_ge size split_size (strideOf split_size overlap) hs
  · intro n
    unfold start_points
    cases n with
    | zero => rfl
    | succ m => simp [startPointsLoop]

/-- Witness for C1 at the concrete input `size = 300`, `split_size = 256`,
`overlap = 1/2`. -/
theorem start_points_correct_witness :
    256 < 300 ∧ 0 < strideOf 256 (1/2) ∧ start_points 300 256 (1/2) = [0, 44] :=
  ⟨by decide, by rw [strideOf_256_half]; decide,
    (start_points_correct 300 256 (1/2) (by decide)
      (by rw [strideOf_256_half]; decide)).2.2.2.2⟩

/-- Padded axis length from `create_non_overlapping_crops`:
`(d-1+T)//T*T`, written `(d+T-1)/T*T` so that `ℕ` subtraction agrees with
Python's signed arithmetic for every `d ≥ 0` (when `0 < T`). -/
def padDim (d T : ℕ) : ℕ := (d + T - 1) / T * T

/-- Low-side padding offset: `(pad_shape - shape)//2`. -/
def padStart (D d : ℕ) : ℕ := (D - d) / 2

/-- The zero-padded canvas with the source block written at the centred
offsets, as built by the two slice assignments in
`create_non_overlapping_crops`. -/
def paddedCanvas {α : Type} (h w T : ℕ) (z : α) (A : ℕ → ℕ → α) : ℕ → ℕ → α :=
  fun i j =>
    if padStart (padDim h T) h ≤ i ∧ i < padStart (padDim h T) h + h ∧
       padStart (padDim w T) w ≤ j ∧ j < padStart (padDim w T) w + w then
      A (i - padStart (padDim h T) h) (j - padStart (padDim w T) w)
    else z

/-- Number of tile columns of the padded canvas. -/
def tileCols (w T : ℕ) : ℕ := padDim w T / T

/-- Number of tile rows of the padded canvas. -/
def tileRows (h T : ℕ) : ℕ := padDim h T / T

/-- Total number of non-overlapping tiles (`(p1 p2)` in the rearrange). -/
def numCrops (h w T : ℕ) : ℕ := tileRows h T * tileCols w T

/-- Entry `(i, j)` of tile `t` of the padded canvas, in row-major tile order:
the `rearrange '(p1 h) (p2 w) -> (p1 p2) h w'` step. -/
def cropAt {α : Type} (h w T : ℕ) (z : α) (A : ℕ → ℕ → α) (t i j : ℕ) : α :=
  paddedCanvas h w T z A (t / tileCols w T * T + i) (t % tileCols w T * T + j)

/-- `create_non_overlapping_crops(image, density, image_size)`: unpacks
`h, w = density.shape` (a Python `ValueError` when the density array is not
2-D), pads both arrays to the same multiple-of-`T` canvas with shared centred
offsets, and cuts both canvases into `T × T` tiles in row-major order.
Returns (image tiles, density tiles, tile count). -/
def create_non_overlapping_crops (img : ℕ → ℕ → ℕ → ℚ) (densityShape : List ℕ)
    (den : ℕ → ℕ → ℚ) (T : ℕ) :
    Except String ((ℕ → ℕ → ℕ → ℕ → ℚ) × (ℕ → ℕ → ℕ → ℚ) × ℕ) :=
  match densityShape with
  | [h, w] =>
    .ok (fun t i j ch => cropAt h w T (fun _ => (0 : ℚ)) (fun y x c => img y x c) t i j ch,
         fun t i j => cropAt h w T (0 : ℚ) den t i j,
         numCrops h w T)
  | _ => .error "too many values to unpack"

/-- Shape of `torch.stack` of `K` equal-shaped arrays. -/
def stackShape (K : ℕ) (s : List ℕ) : List ℕ := K :: s

/-- Shape effect of `numpy.transpose(1, 2, 0)` on a 3-D array. -/
def transposeShape120 : List ℕ → List ℕ
  | [a, b, c] => [b, c, a]
  | l => l

/-- Shape of the density field produced by the pipeline in `main`
(lines 127-130): `K` convolved `h × w` channels stacked and transposed to
`h × w × K`. -/
def pipelineDensityShape (h w K : ℕ) : List ℕ :=
  transposeShape120 (stackShape K [h, w])

theorem padDim_eq_mul (d T : ℕ) : padDim d T = (d + T - 1) / T * T := rfl

theorem le_padDim (d T : ℕ) (hT : 0 < T) : d ≤ padDim d T := by
  have hdm := Nat.div_add_mod (d + T - 1) T
  have hmlt : (d + T - 1) % T < T := Nat.mod_lt _ hT
  have hcomm : (d + T - 1) / T * T = T * ((d + T - 1) / T) := Nat.mul_comm _ _
  unfold padDim
  omega

theorem dvd_padDim (d T : ℕ) : T ∣ padDim d T := dvd_mul_left T _

theorem padDim_min (d T : ℕ) (hT : 0 < T) (m : ℕ) (hdvd : T ∣ m) (hdm : d ≤ m) :
    padDim d T ≤ m := by
  obtain ⟨c, rfl⟩ := hdvd
  unfold padDim
  have h1 : d + T - 1 ≤ T * c + (T - 1) := by omega
  have h2 : (d + T - 1) / T ≤ (T * c + (T - 1)) / T := Nat.div_le_div_right h1
  have h3 : (T * c + (T - 1)) / T = c + (T - 1) / T := Nat.mul_add_div hT c (T - 1)
  have h4 : (T - 1) / T = 0 := Nat.div_eq_of_lt (by omega)
  have h5 : (d + T - 1) / T ≤ c := by omega
  calc (d + T - 1) / T * T ≤ c * T := Nat.mul_le_mul_right T h5
    _ = T * c := Nat.mul_comm c T

theorem tileCols_mul (w T : ℕ) (_hT : 0 < T) : tileCols w T * T = padDim w T :=
  Nat.div_mul_cancel (dvd_padDim w T)

theorem tileRows_mul (h T : ℕ) (_hT : 0 < T) : tileRows h T * T = padDim h T :=
  Nat.div_mul_cancel (dvd_padDim h T)

/-- C2. Non-overlapping mode: each padded dimension is the least multiple of
`T` at least the source dimension; the source is centred with the extra pixel
on the high side when the pad is odd; the call on a 2-D density field returns
row-major `T × T` tiles of the padded canvases, image and density cut with
the same offsets; each canvas cell is covered by exactly the expected tile;
and a `300 × 300` field with `T = 256` pads to `512 × 512` at offset
`(106, 106)` and yields 4 tiles. -/
theorem non_overlapping_crops_correct (T : ℕ) (hT : 0 < T) :
    (∀ d, T ∣ padDim d T ∧ d ≤ padDim d T ∧
      ∀ m, T ∣ m → d ≤ m → padDim d T ≤ m) ∧
    (∀ d, (padDim d T - d) - padStart (padDim d T) d
        = padStart (padDim d T) d + (padDim d T - d) % 2) ∧
    (∀ (h w : ℕ) (img : ℕ → ℕ → ℕ → ℚ) (den : ℕ → ℕ → ℚ),
      create_non_overlapping_crops img [h, w] den T =
        .ok (fun t i j ch => paddedCanvas h w T (fun _ => (0 : ℚ)) (fun y x c => img y x c)
               (t / tileCols w T * T + i) (t % tileCols w T * T + j) ch,
             fun t i j => paddedCanvas h w T (0 : ℚ) den
               (t / tileCols w T * T + i) (t % tileCols w T * T + j),
             tileRows h T * tileCols w T)) ∧
    (∀ (h w : ℕ) (den : ℕ → ℕ → ℚ) (y x : ℕ), y < padDim h T → x < padDim w T →
      y / T * tileCols w T + x / T < numCrops h w T ∧
      cropAt h w T (0 : ℚ) den (y / T * tileCols w T + x / T) (y % T) (x % T)
        = paddedCanvas h w T (0 : ℚ) den y x) ∧
    (padDim 300 256 = 512 ∧ padStart 512 300 = 106 ∧ numCrops 300 300 256 = 4) := by
  refine ⟨?_, ?_, ?_, ?_, by decide, by decide, by decide⟩
  · exact fun d => ⟨dvd_padDim d T, le_padDim d T hT, fun m => padDim_min d T hT m⟩
  · intro d
    unfold padStart
    omega
  · intro h w img den
    rfl
  · intro h w den y x hy hx
    have hC : 0 < tileCols w T := by
      rcases Nat.eq_zero_or_pos (tileCols w T) with h0 | h0
      · exfalso
        have := tileCols_mul w T hT
        rw [h0] at this
        omega
      · exact h0
    have hR : 0 < tileRows h T := by
      rcases Nat.eq_zero_or_pos (tileRows h T) with h0 | h0
      · exfalso
        have := tileRows_mul h T hT
        rw [h0] at this
        omega
      · exact h0
    have hxC : x / T < tileCols w T := by
      rw [Nat.div_lt_iff_lt_mul hT, tileCols_mul w T hT]
      exact hx
    have hyR : y / T < tileRows h T := by
      rw [Nat.div_lt_iff_lt_mul hT, tileRows_mul h T hT]
      exact hy
    have ht1 : (y / T * tileCols w T + x / T) / tileCols w T = y / T := by
      rw [Nat.add_comm, Nat.add_mul_div_right _ _ hC, Nat.div_eq_of_lt hxC,
        Nat.zero_add]
    have ht2 : (y / T * tileCols w T + x / T) % tileCols w T = x / T := by
      rw [Nat.add_comm, Nat.add_mul_mod_self_right]
      exact Nat.mod_eq_of_lt hxC
    constructor
    · have hstep : y / T * tileCols w T + x / T < (y / T + 1) * tileCols w T := by
        rw [Nat.succ_mul]
        omega
      have hmul : (y / T + 1) * tileCols w T ≤ tileRows h T * tileCols w T :=
        Nat.mul_le_mul_right _ (by omega)
      exact lt_of_lt_of_le hstep hmul
    · unfold cropAt
      rw [ht1, ht2]
      have e1 : y / T * T + y % T = y := by
        have h1 := Nat.div_add_mod y T
        have h2 := Nat.mul_comm T (y / T)
        omega
      have e2 : x / T * T + x % T = x := by
        have h1 := Nat.div_add_mod x T
        have h2 := Nat.mul_comm T (x / T)
        omega
      rw [e1, e2]

/-- Witness for C2 at `T = 256` with the concrete `300 × 300` instance. -/
theorem non_overlapping_crops_correct_witness :
    0 < 256 ∧ padDim 300 256 = 512 ∧ padStart 512 300 = 106 ∧
      numCrops 300 300 256 = 4 :=
  ⟨by decide, (non_overlapping_crops_correct 256 (by decide)).2.2.2.2⟩

/-- C10. The density field produced by the pipeline has shape `h × w × K`
(one channel per configured kernel); `create_non_overlapping_crops` unpacks
the density shape into exactly two values, so on every such multi-channel
field the call fails with the unpack error instead of returning tiles. -/
theorem non_overlapping_crops_rejects_multichannel (h w K T : ℕ) (_hK : 0 < K)
    (img : ℕ → ℕ → ℕ → ℚ) (den : ℕ → ℕ → ℚ) :
    create_non_overlapping_crops img (pipelineDensityShape h w K) den T =
      .error "too many values to unpack" := rfl

/-- Witness for C10 with one configured kernel. -/
theorem non_overlapping_crops_rejects_multichannel_witness :
    0 < 1 ∧ create_non_overlapping_crops (fun _ _ _ => 0)
      (pipelineDensityShape 300 300 1) (fun _ _ => 0) 256 =
      .error "too many values to unpack" :=
  ⟨by decide, non_overlapping_crops_rejects_multichannel 300 300 1 256 (by decide) _ _⟩

/-- Numpy integer indexing on an axis of length `n`: indices in `[0, n)` are
used directly, indices in `[-n, 0)` wrap around to `n + i`, anything else
raises `IndexError` (modelled as `none`). -/
def npIndex (n : ℕ) (i : ℤ) : Option ℕ :=
  if 0 ≤ i ∧ i < (n : ℤ) then some i.toNat
  else if -(n : ℤ) ≤ i ∧ i < 0 then some (i + n).toNat
  else none

/-- The cell written by `density[y, x] = 1.` for one annotated point
`(x, y)` after `int()` truncation, with numpy index semantics. -/
def pointCell (h w : ℕ) (p : ℚ × ℚ) : Option (ℕ × ℕ) :=
  match npIndex h (pyInt p.2), npIndex w (pyInt p.1) with
  | some y, some x => some (y, x)
  | _, _ => none

/-- One iteration of the dot-map loop: write `1.` at the point's cell,
propagating a previous or current `IndexError` as `none`. -/
def dotStep (h w : ℕ) (acc : Option (ℕ → ℕ → ℚ)) (p : ℚ × ℚ) :
    Option (ℕ → ℕ → ℚ) :=
  match acc, pointCell h w p with
  | some d, some c => some (fun y x => if (y, x) = c then (1 : ℚ) else d y x)
  | _, _ => none

/-- `create_dot_map(locations, image_size)`: a zero `h × w` map with `1.`
written at each point's truncated pixel; `none` models the `IndexError`
raised on the first point whose index is out of numpy range. -/
def create_dot_map (locations : List (ℚ × ℚ)) (h w : ℕ) : Option (ℕ → ℕ → ℚ) :=
  locations.foldl (dotStep h w) (some (fun _ _ => (0 : ℚ)))

/-- The indicator map of a list of written cells. -/
def cellIndicator (cs : List (ℕ × ℕ)) : ℕ → ℕ → ℚ :=
  fun y x => if (y, x) ∈ cs then 1 else 0

/-- The list of cells written by the dot-map loop, one per point, in order;
`none` when some point indexes out of numpy range. -/
def cellsOf (h w : ℕ) : List (ℚ × ℚ) → Option (List (ℕ × ℕ))
  | [] => some []
  | p :: t =>
    match pointCell h w p, cellsOf h w t with
    | some c, some cs => some (c :: cs)
    | _, _ => none

theorem dot_fold_none (h w : ℕ) :
    ∀ locs : List (ℚ × ℚ), locs.foldl (dotStep h w) none = none := by
  intro locs
  induction locs with
  | nil => rfl
  | cons p t ih =>
    rw [List.foldl_cons]
    have hstep : dotStep h w none p = none := rfl
    rw [hstep, ih]

theorem dot_fold_eq (h w : ℕ) :
    ∀ (locs : List (ℚ × ℚ)) (cs : List (ℕ × ℕ)) (f : ℕ → ℕ → ℚ),
      cellsOf h w locs = some cs →
      locs.foldl (dotStep h w) (some f) =
        some (fun y x => if (y, x) ∈ cs then 1 else f y x) := by
  intro locs
  induction locs with
  | nil =>
    intro cs f hm
    simp only [cellsOf, Option.some.injEq] at hm
    subst hm
    simp
  | cons p t ih =>
    intro cs f hm
    simp only [cellsOf] at hm
    cases hc : pointCell h w p with
    | none => rw [hc] at hm; simp at hm
    | some c =>
      rw [hc] at hm
      cases ht : cellsOf h w t with
      | none => rw [ht] at hm; simp at hm
      | some cs' =>
        rw [ht] at hm
        have hm' : cs = c :: cs' := by
          simpa using hm.symm
        subst hm'
        rw [List.foldl_cons]
        have hstep : dotStep h w (some f) p =
            some (fun y x => if (y, x) = c then (1 : ℚ) else f y x) := by
          unfold dotStep
          rw [hc]
        rw [hstep, ih cs' (fun y x => if (y, x) = c then (1 : ℚ) else f y x) ht]
        congr 1
        funext y x
        by_cases h1 : (y, x) ∈ cs' <;> by_cases h2 : (y, x) = c <;>
          simp [List.mem_cons, h1, h2]

theorem create_dot_map_eq (locs : List (ℚ × ℚ)) (h w : ℕ) (cs : List (ℕ × ℕ))
    (hm : cellsOf h w locs = some cs) :
    create_dot_map locs h w = some (cellIndicator cs) :=
  dot_fold_eq h w locs cs (fun _ _ => 0) hm

theorem dot_fold_none_of_cells (h w : ℕ) :
    ∀ (locs : List (ℚ × ℚ)) (f : ℕ → ℕ → ℚ),
      cellsOf h w locs = none →
      locs.foldl (dotStep h w) (some f) = none := by
  intro locs
  induction locs with
  | nil => intro f hm; simp [cellsOf] at hm
  | cons p t ih =>
    intro f hm
    simp only [cellsOf] at hm
    cases hc : pointCell h w p with
    | none =>
      rw [List.foldl_cons]
      have hstep : dotStep h w (some f) p = none := by
        unfold dotStep
        rw [hc]
      rw [hstep]
      exact dot_fold_none h w t
    | some c =>
      rw [hc] at hm
      cases ht : cellsOf h w t with
      | some cs' => rw [ht] at hm; simp at hm
      | none =>
        rw [List.foldl_cons]
        have hstep : dotStep h w (some f) p =
            some (fun y x => if (y, x) = c then (1 : ℚ) else f y x) := by
          unfold dotStep
          rw [hc]
        rw [hstep]
        exact ih _ ht

theorem create_dot_map_none (locs : List (ℚ × ℚ)) (h w : ℕ)
    (hm : cellsOf h w locs = none) :
    create_dot_map locs h w = none :=
  dot_fold_none_of_cells h w locs (fun _ _ => 0) hm

theorem npIndex_lt (n : ℕ) (i : ℤ) (m : ℕ) (h : npIndex n i = some m) :
    m < n := by
  unfold npIndex at h
  split_ifs at h with h1 h2
  · simp only [Option.some.injEq] at h
    omega
  · simp only [Option.some.injEq] at h
    omega

theorem npIndex_of_range (n : ℕ) (i : ℤ) (h0 : 0 ≤ i) (hn : i < (n : ℤ)) :
    npIndex n i = some i.toNat := by
  unfold npIndex
  rw [if_pos ⟨h0, hn⟩]

theorem pointCell_lt (h w : ℕ) (p : ℚ × ℚ) (c : ℕ × ℕ)
    (hc : pointCell h w p = some c) : c.1 < h ∧ c.2 < w := by
  unfold pointCell at hc
  cases hy : npIndex h (pyInt p.2) with
  | none => rw [hy] at hc; simp at hc
  | some y =>
    cases hx : npIndex w (pyInt p.1) with
    | none => rw [hy, hx] at hc; simp at hc
    | some x =>
      rw [hy, hx] at hc
      simp only [Option.some.injEq] at hc
      subst hc
      exact ⟨npIndex_lt h _ y hy, npIndex_lt w _ x hx⟩

theorem cellsOf_lt (h w : ℕ) :
    ∀ (locs : List (ℚ × ℚ)) (cs : List (ℕ × ℕ)),
      cellsOf h w locs = some cs → ∀ c ∈ cs, c.1 < h ∧ c.2 < w := by
  intro locs
  induction locs with
  | nil =>
    intro cs hm c hc
    simp only [cellsOf, Option.some.injEq] at hm
    subst hm
    simp at hc
  | cons p t ih =>
    intro cs hm c hc
    simp only [cellsOf] at hm
    cases hp : pointCell h w p with
    | none => rw [hp] at hm; simp at hm
    | some c0 =>
      rw [hp] at hm
      cases ht : cellsOf h w t with
      | none => rw [ht] at hm; simp at hm
      | some cs' =>
        rw [ht] at hm
        simp only [Option.some.injEq] at hm
        subst hm
        rcases List.mem_cons.mp hc with h1 | h1
        · subst h1
          exact pointCell_lt h w p c hp
        · exact ih cs' ht c h1

theorem cellsOf_length (h w : ℕ) :
    ∀ (locs : List (ℚ × ℚ)) (cs : List (ℕ × ℕ)),
      cellsOf h w locs = some cs → cs.length = locs.length := by
  intro locs
  induction locs with
  | nil =>
    intro cs hm
    simp only [cellsOf, Option.some.injEq] at hm
    subst hm
    rfl
  | cons p t ih =>
    intro cs hm
    simp only [cellsOf] at hm
    cases hp : pointCell h w p with
    | none => rw [hp] at hm; simp at hm
    | some c0 =>
      rw [hp] at hm
      cases ht : cellsOf h w t with
      | none => rw [ht] at hm; simp at hm
      | some cs' =>
        rw [ht] at hm
        simp only [Option.some.injEq] at hm
        subst hm
        simp [ih cs' ht]

theorem cellsOf_of_in_range (h w : ℕ) :
    ∀ locs : List (ℚ × ℚ),
      (∀ p ∈ locs, 0 ≤ pyInt p.1 ∧ pyInt p.1 < (w : ℤ) ∧
        0 ≤ pyInt p.2 ∧ pyInt p.2 < (h : ℤ)) →
      cellsOf h w locs =
        some (locs.map (fun p => ((pyInt p.2).toNat, (pyInt p.1).toNat))) := by
  intro locs
  induction locs with
  | nil => intro _; rfl
  | cons p t ih =>
    intro hin
    obtain ⟨hx0, hxw, hy0, hyh⟩ := hin p (List.mem_cons_self p t)
    have hpc : pointCell h w p = some ((pyInt p.2).toNat, (pyInt p.1).toNat) := by
      unfold pointCell
      rw [npIndex_of_range h _ hy0 hyh, npIndex_of_range w _ hx0 hxw]
    have ht := ih (fun q hq => hin q (List.mem_cons_of_mem p hq))
    simp only [cellsOf, hpc, ht, List.map_cons]

/-- C9. When every point's truncated coordinates lie in
`[0, w) × [0, h)`, `create_dot_map` succeeds and returns the map with value
exactly `1` at each point's truncated pixel `(y, x)` and `0` everywhere
else; points truncating to the same pixel leave a single unit there (every
cell holds `1` or `0`, never more). -/
theorem create_dot_map_in_range (locs : List (ℚ × ℚ)) (h w : ℕ)
    (hin : ∀ p ∈ locs, 0 ≤ pyInt p.1 ∧ pyInt p.1 < (w : ℤ) ∧
      0 ≤ pyInt p.2 ∧ pyInt p.2 < (h : ℤ)) :
    ∃ dm, create_dot_map locs h w = some dm ∧
      (∀ p ∈ locs, dm (pyInt p.2).toNat (pyInt p.1).toNat = 1) ∧
      (∀ y x, (¬ ∃ p ∈ locs, (pyInt p.2).toNat = y ∧ (pyInt p.1).toNat = x) →
        dm y x = 0) ∧
      (∀ y x, dm y x = 1 ∨ dm y x = 0) := by
  have hcells := cellsOf_of_in_range h w locs hin
  refine ⟨cellIndicator (locs.map (fun p => ((pyInt p.2).toNat, (pyInt p.1).toNat))),
    create_dot_map_eq locs h w _ hcells, ?_, ?_, ?_⟩
  · intro p hp
    unfold cellIndicator
    rw [if_pos]
    exact List.mem_map_of_mem _ hp
  · intro y x hno
    unfold cellIndicator
    rw [if_neg]
    intro hmem
    rcases List.mem_map.mp hmem with ⟨p, hp, hpe⟩
    exact hno ⟨p, hp, by
      have h1 := congrArg Prod.fst hpe
      have h2 := congrArg Prod.snd hpe
      simp at h1 h2
      exact ⟨h1, h2⟩⟩
  · intro y x
    unfold cellIndicator
    by_cases hmem : (y, x) ∈ locs.map (fun p => ((pyInt p.2).toNat, (pyInt p.1).toNat))
    · left; rw [if_pos hmem]
    · right; rw [if_neg hmem]

theorem pyInt_zero : pyInt 0 = 0 := by
  unfold pyInt
  rw [if_neg (by norm_num)]
  exact Int.floor_zero

theorem pyInt_one : pyInt 1 = 1 := by
  unfold pyInt
  rw [if_neg (by norm_num)]
  exact Int.floor_one

theorem pyInt_two : pyInt 2 = 2 := by
  unfold pyInt
  rw [if_neg (by norm_num)]
  norm_num

theorem pyInt_five : pyInt 5 = 5 := by
  unfold pyInt
  rw [if_neg (by norm_num)]
  norm_num

theorem pyInt_negOne : pyInt (-1) = -1 := by
  unfold pyInt
  rw [if_pos (by norm_num), show ((-1 : ℚ)) = (((-1 : ℤ)) : ℚ) by norm_num,
    Int.ceil_intCast]

/-- Witness for C9: two points that truncate to the same pixel `(2, 1)` of a
`3 × 3` map; the map holds a single `1` there. -/
theorem create_dot_map_in_range_witness :
    (∀ p ∈ [((1 : ℚ), (2 : ℚ)), ((1 : ℚ), (2 : ℚ))],
      0 ≤ pyInt p.1 ∧ pyInt p.1 < (3 : ℤ) ∧ 0 ≤ pyInt p.2 ∧ pyInt p.2 < (3 : ℤ)) ∧
    (∃ dm, create_dot_map [((1 : ℚ), (2 : ℚ)), ((1 : ℚ), (2 : ℚ))] 3 3 = some dm ∧
      (∀ p ∈ [((1 : ℚ), (2 : ℚ)), ((1 : ℚ), (2 : ℚ))],
        dm (pyInt p.2).toNat (pyInt p.1).toNat = 1) ∧
      (∀ y x, (¬ ∃ p ∈ [((1 : ℚ), (2 : ℚ)), ((1 : ℚ), (2 : ℚ))],
          (pyInt p.2).toNat = y ∧ (pyInt p.1).toNat = x) → dm y x = 0) ∧
      (∀ y x, dm y x = 1 ∨ dm y x = 0)) := by
  have hin : ∀ p ∈ [((1 : ℚ), (2 : ℚ)), ((1 : ℚ), (2 : ℚ))],
      0 ≤ pyInt p.1 ∧ pyInt p.1 < (3 : ℤ) ∧ 0 ≤ pyInt p.2 ∧ pyInt p.2 < (3 : ℤ) := by
    intro p hp
    have hp' : p = ((1 : ℚ), (2 : ℚ)) := by
      rcases List.mem_cons.mp hp with h1 | h1
      · exact h1
      · simpa using h1
    subst hp'
    simp only [pyInt_one, pyInt_two]
    refine ⟨by norm_num, by norm_num, by norm_num, by norm_num⟩
  exact ⟨hin, create_dot_map_in_range _ 3 3 hin⟩

/-- C4, behavior of the code at the failing inputs: a point whose truncated
`y` is `5` on a `3 × 3` map raises `IndexError` (no map is produced), and a
point with `x = -1` is NOT dropped: numpy wraps it to column `2` and the
out-of-range point's unit lands in the map. -/
theorem create_dot_map_out_of_range_behavior :
    create_dot_map [((0 : ℚ), (5 : ℚ))] 3 3 = none ∧
    create_dot_map [((-1 : ℚ), (0 : ℚ))] 3 3 = some (cellIndicator [(0, 2)]) ∧
    cellIndicator [(0, 2)] 0 2 = 1 := by
  refine ⟨?_, ?_, by simp [cellIndicator]⟩
  · apply create_dot_map_none
    have hpc : pointCell 3 3 ((0 : ℚ), (5 : ℚ)) = none := by
      unfold pointCell
      have h5 : pyInt ((0 : ℚ), (5 : ℚ)).2 = 5 := pyInt_five
      rw [h5]
      have hidx : npIndex 3 (5 : ℤ) = none := by
        unfold npIndex
        rw [if_neg (by decide), if_neg (by decide)]
      rw [hidx]
    simp [cellsOf, hpc]
  · have hy : npIndex 3 (pyInt ((-1 : ℚ), (0 : ℚ)).2) = some 0 := by
      have h0 : pyInt ((-1 : ℚ), (0 : ℚ)).2 = 0 := pyInt_zero
      rw [h0]
      unfold npIndex
      rw [if_pos (by decide)]
      rfl
    have hx : npIndex 3 (pyInt ((-1 : ℚ), (0 : ℚ)).1) = some 2 := by
      have h1 : pyInt ((-1 : ℚ), (0 : ℚ)).1 = -1 := pyInt_negOne
      rw [h1]
      unfold npIndex
      rw [if_neg (by decide), if_pos (by decide)]
      rfl
    have hpc : pointCell 3 3 ((-1 : ℚ), (0 : ℚ)) = some (0, 2) := by
      unfold pointCell
      rw [hy, hx]
    apply create_dot_map_eq
    simp [cellsOf, hpc]

/-- `get_kernel_and_sigma_list(args)` after parsing: the function returns
the two lists as-is and performs no validation of lengths or signs. -/
def get_kernel_and_sigma_list (kernel_size_list : List ℤ) (sigma_list : List ℚ) :
    List ℤ × List ℚ :=
  (kernel_size_list, sigma_list)

/-- The kernel construction loop of `main`:
`[create_density_kernel(kernel_size_list[index], sigma_list[index]) for index
in range(len(sigma_list))]` — one (size, sigma) pair per sigma index;
`none` models the `IndexError` raised when the size list is shorter. -/
def kernelPlan : List ℤ → List ℚ → Option (List (ℤ × ℚ))
  | _, [] => some []
  | [], _ :: _ => none
  | k :: ks, s :: ss =>
    match kernelPlan ks ss with
    | some l => some ((k, s) :: l)
    | none => none

/-- C5, behavior of the code at invalid configurations: no `ConfigError`
exists anywhere in the source.  With a longer size list than sigma list the
extra sizes are silently ignored and a kernel is still produced; with a
longer sigma list the comprehension dies with a bare `IndexError`; a
non-positive size or sigma is accepted into the construction loop. -/
theorem kernel_config_no_validation :
    get_kernel_and_sigma_list [3, 5] [1] = ([3, 5], [1]) ∧
    kernelPlan [3, 5] [1] = some [(3, 1)] ∧
    kernelPlan [3] [1, 1] = none ∧
    kernelPlan [0] [-1] = some [(0, -1)] :=
  ⟨rfl, rfl, rfl, rfl⟩

/-- A 3-D numpy array: shape `(h, w, c)` plus its entries. -/
structure Arr3 where
  h : ℕ
  w : ℕ
  c : ℕ
  val : ℕ → ℕ → ℕ → ℚ

/-- `image[i:i+crop_size, j:j+crop_size, :]`: numpy slicing clips at the
array bounds, so the produced crop can be smaller than requested. -/
def cropOf (image : Arr3) (i j crop_size : ℕ) : Arr3 :=
  ⟨min crop_size (image.h - i), min crop_size (image.w - j), image.c,
   fun y x ch => image.val (i + y) (j + x) ch⟩

/-- Result of `arrange_crops`: `stacked` records whether `np.stack`
succeeded (it raises `ValueError` on mismatched shapes and on an empty
list); `shapes` are the crop shapes the except-branch prints. -/
structure ArrangeResult where
  stacked : Bool
  shapes : List (ℕ × ℕ × ℕ)
  crops : List Arr3

/-- `arrange_crops(image, x_start, y_start, crop_size)`: collects the crops
row-major (outer loop over `y_start`, inner over `x_start`) and stacks them;
the source CATCHES the stacking `ValueError`, prints the shapes and returns
the unstacked list — no exception escapes. -/
def arrange_crops (image : Arr3) (x_start y_start : List ℕ) (crop_size : ℕ) :
    ArrangeResult :=
  let crops := y_start.flatMap (fun i => x_start.map (fun j => cropOf image i j crop_size))
  let shapes := crops.map (fun cr => (cr.h, cr.w, cr.c))
  match shapes with
  | [] => ⟨false, [], crops⟩
  | s0 :: rest => ⟨rest.all (fun s => s == s0), s0 :: rest, crops⟩

/-- C6, behavior of the code on mismatched crop shapes: on a `3 × 3 × 1`
image with `crop_size = 2` and starts `y ∈ {0, 2}`, the two crops have
shapes `(2,2,1)` and `(1,2,1)`; `np.stack` fails, the except-branch prints
the shapes, and the ragged list is returned with no error raised. -/
theorem arrange_crops_mismatch_behavior :
    (arrange_crops ⟨3, 3, 1, fun _ _ _ => 0⟩ [0] [0, 2] 2).stacked = false ∧
    (arrange_crops ⟨3, 3, 1, fun _ _ _ => 0⟩ [0] [0, 2] 2).shapes =
      [(2, 2, 1), (1, 2, 1)] := by
  constructor <;> rfl

/-- A PIL image: `size` is `(w, h)`; pixel contents abstract. -/
structure PImage (α : Type) where
  w : ℕ
  h : ℕ
  pix : ℕ → ℕ → α

/-- Modelled from the spec: `PIL.Image.resize` is an external collaborator;
per the spec it is a deterministic interpolation producing exactly the
requested size, and a resize to the image's own size returns the image
unchanged. -/
def pilResize {α : Type} (interp : PImage α → ℕ → ℕ → ℕ → ℕ → α)
    (img : PImage α) (w h : ℕ) : PImage α :=
  if w = img.w ∧ h = img.h then img else ⟨w, h, fun x y => interp img w h x y⟩

/-- `scale = np.ceil(max(image_size/h, image_size/w))` from
`resize_rescale_info`. -/
def rescaleFactor (image_size h w : ℕ) : ℤ :=
  ⌈max ((image_size : ℚ) / h) ((image_size : ℚ) / w)⌉

/-- `resize_rescale_info(image, locations, image_size)`: when either
dimension is below `image_size`, scale both dimensions and all point
coordinates by the same ceiling factor, then resize; otherwise resize to the
current size (a no-op). -/
def resize_rescale_info {α : Type} (interp : PImage α → ℕ → ℕ → ℕ → ℕ → α)
    (img : PImage α) (locations : List (ℚ × ℚ)) (image_size : ℕ) :
    PImage α × List (ℚ × ℚ) :=
  if img.h < image_size ∨ img.w < image_size then
    (pilResize interp img
      (pyInt (((rescaleFactor image_size img.h img.w : ℤ) : ℚ) * img.w)).toNat
      (pyInt (((rescaleFactor image_size img.h img.w : ℤ) : ℚ) * img.h)).toNat,
     locations.map (fun p => (p.1 * ((rescaleFactor image_size img.h img.w : ℤ) : ℚ),
       p.2 * ((rescaleFactor image_size img.h img.w : ℤ) : ℚ))))
  else
    (pilResize interp img img.w img.h, locations)

theorem pyInt_intCast (z : ℤ) : pyInt ((z : ℚ)) = z := by
  unfold pyInt
  split_ifs with hz
  · exact Int.ceil_intCast z
  · exact Int.floor_intCast z

/-- C7. Identity on already-large-enough inputs: if both dimensions meet the
minimum, the returned image and points are exactly the inputs. -/
theorem resize_rescale_identity {α : Type} (interp : PImage α → ℕ → ℕ → ℕ → ℕ → α)
    (img : PImage α) (locs : List (ℚ × ℚ)) (image_size : ℕ)
    (hh : image_size ≤ img.h) (hw : image_size ≤ img.w) :
    resize_rescale_info interp img locs image_size = (img, locs) := by
  unfold resize_rescale_info
  rw [if_neg (by omega)]
  unfold pilResize
  rw [if_pos ⟨rfl, rfl⟩]

/-- Witness for C7 at a concrete `2 × 2` image with `image_size = 1`. -/
theorem resize_rescale_identity_witness :
    (1 : ℕ) ≤ 2 ∧
    resize_rescale_info (fun (_ : PImage ℚ) _ _ _ _ => 0) ⟨2, 2, fun _ _ => 0⟩
      [((1 : ℚ), (1 : ℚ))] 1 = (⟨2, 2, fun _ _ => 0⟩, [((1 : ℚ), (1 : ℚ))]) :=
  ⟨by decide,
    resize_rescale_identity _ ⟨2, 2, fun _ _ => 0⟩ _ 1 (by decide) (by decide)⟩

theorem resize_rescale_general {α : Type} (interp : PImage α → ℕ → ℕ → ℕ → ℕ → α)
    (img : PImage α) (locs : List (ℚ × ℚ)) (m : ℕ)
    (hh : 0 < img.h) (hw : 0 < img.w) (hund : img.h < m ∨ img.w < m) :
    ((rescaleFactor m img.h img.w).toNat : ℤ) = rescaleFactor m img.h img.w ∧
    1 < rescaleFactor m img.h img.w ∧
    (resize_rescale_info interp img locs m).1.h =
      (rescaleFactor m img.h img.w).toNat * img.h ∧
    (resize_rescale_info interp img locs m).1.w =
      (rescaleFactor m img.h img.w).toNat * img.w ∧
    (resize_rescale_info interp img locs m).2 =
      locs.map (fun p => (p.1 * ((rescaleFactor m img.h img.w : ℤ) : ℚ),
        p.2 * ((rescaleFactor m img.h img.w : ℤ) : ℚ))) := by
  have hc2 : 1 < rescaleFactor m img.h img.w := by
    unfold rescaleFactor
    rcases hund with hcase | hcase
    · refine Int.lt_ceil.mpr (lt_of_lt_of_le ?_ (le_max_left _ _))
      rw [show (((1 : ℤ)) : ℚ) = (1 : ℚ) by norm_num,
        one_lt_div (by exact_mod_cast hh)]
      exact_mod_cast hcase
    · refine Int.lt_ceil.mpr (lt_of_lt_of_le ?_ (le_max_right _ _))
      rw [show (((1 : ℤ)) : ℚ) = (1 : ℚ) by norm_num,
        one_lt_div (by exact_mod_cast hw)]
      exact_mod_cast hcase
  have hc0 : (0 : ℤ) ≤ rescaleFactor m img.h img.w := by omega
  have hcn : ((rescaleFactor m img.h img.w).toNat : ℤ) = rescaleFactor m img.h img.w :=
    Int.toNat_of_nonneg hc0
  have hmulh : ((rescaleFactor m img.h img.w : ℤ) : ℚ) * (img.h : ℚ) =
      ((((rescaleFactor m img.h img.w).toNat * img.h : ℕ) : ℤ) : ℚ) := by
    push_cast [hcn]
    ring
  have hmulw : ((rescaleFactor m img.h img.w : ℤ) : ℚ) * (img.w : ℚ) =
      ((((rescaleFactor m img.h img.w).toNat * img.w : ℕ) : ℤ) : ℚ) := by
    push_cast [hcn]
    ring
  have hh2 : (pyInt (((rescaleFactor m img.h img.w : ℤ) : ℚ) * (img.h : ℚ))).toNat =
      (rescaleFactor m img.h img.w).toNat * img.h := by
    rw [hmulh, pyInt_intCast]
    exact Int.toNat_natCast _
  have hw2 : (pyInt (((rescaleFactor m img.h img.w : ℤ) : ℚ) * (img.w : ℚ))).toNat =
      (rescaleFactor m img.h img.w).toNat * img.w := by
    rw [hmulw, pyInt_intCast]
    exact Int.toNat_natCast _
  have hn2 : 2 ≤ (rescaleFactor m img.h img.w).toNat := by omega
  refine ⟨hcn, hc2, ?_, ?_, ?_⟩ <;>
    (unfold resize_rescale_info; rw [if_pos hund])
  · unfold pilResize
    rw [if_neg]
    · exact hh2
    · intro hcontra
      have := hcontra.2
      rw [hh2] at this
      nlinarith [hn2, hh]
  · unfold pilResize
    rw [if_neg]
    · exact hw2
    · intro hcontra
      have := hcontra.2
      rw [hh2] at this
      nlinarith [hn2, hh]

theorem rescaleFactor_concrete : rescaleFactor 256 100 300 = 3 := by
  unfold rescaleFactor
  have h1 : ((256 : ℕ) : ℚ) / ((300 : ℕ) : ℚ) ≤ ((256 : ℕ) : ℚ) / ((100 : ℕ) : ℚ) := by
    norm_num
  rw [max_eq_left h1, show ((256 : ℕ) : ℚ) / ((100 : ℕ) : ℚ) = (64 / 25 : ℚ) by norm_num,
    Int.ceil_eq_iff]
  constructor <;> norm_num

/-- C8. Undersized images are scaled by the single integer factor
`ceil(max(image_size/h, image_size/w))`, applied identically to both image
dimensions and to every point coordinate; in particular with minimum 256 a
`100 × 300` image (h = 100, w = 300) scales by 3 to `300 × 900` and the
point `(10, 10)` maps to `(30, 30)`. -/
theorem resize_rescale_scales {α : Type} (interp : PImage α → ℕ → ℕ → ℕ → ℕ → α)
    (img : PImage α) (locs : List (ℚ × ℚ)) (m : ℕ)
    (hh : 0 < img.h) (hw : 0 < img.w) (hund : img.h < m ∨ img.w < m) :
    (((rescaleFactor m img.h img.w).toNat : ℤ) = rescaleFactor m img.h img.w ∧
     (resize_rescale_info interp img locs m).1.h =
       (rescaleFactor m img.h img.w).toNat * img.h ∧
     (resize_rescale_info interp img locs m).1.w =
       (rescaleFactor m img.h img.w).toNat * img.w ∧
     (resize_rescale_info interp img locs m).2 =
       locs.map (fun p => (p.1 * ((rescaleFactor m img.h img.w : ℤ) : ℚ),
         p.2 * ((rescaleFactor m img.h img.w : ℤ) : ℚ)))) ∧
    rescaleFactor 256 100 300 = 3 ∧
    (∀ pix : ℕ → ℕ → α,
      (resize_rescale_info interp ⟨300, 100, pix⟩ [((10 : ℚ), (10 : ℚ))] 256).1.h = 300 ∧
      (resize_rescale_info interp ⟨300, 100, pix⟩ [((10 : ℚ), (10 : ℚ))] 256).1.w = 900 ∧
      (resize_rescale_info interp ⟨300, 100, pix⟩ [((10 : ℚ), (10 : ℚ))] 256).2 =
        [((30 : ℚ), (30 : ℚ))]) := by
  obtain ⟨g1, g2, g3, g4, g5⟩ := resize_rescale_general interp img locs m hh hw hund
  refine ⟨⟨g1, g3, g4, g5⟩, rescaleFactor_concrete, ?_⟩
  intro pix
  obtain ⟨c1, c2, c3, c4, c5⟩ := resize_rescale_general interp ⟨300, 100, pix⟩
    [((10 : ℚ), (10 : ℚ))] 256 (show (0 : ℕ) < 100 by decide)
    (show (0 : ℕ) < 300 by decide) (Or.inl (show (100 : ℕ) < 256 by decide))
  have hfac : rescaleFactor 256 (PImage.h ⟨300, 100, pix⟩) (PImage.w ⟨300, 100, pix⟩) = 3 :=
    rescaleFactor_concrete
  refine ⟨?_, ?_, ?_⟩
  · rw [c3, hfac]
    rfl
  · rw [c4, hfac]
    rfl
  · rw [c5, hfac]
    norm_num

/-- Witness for C8 at the concrete `100 × 300` image with minimum 256. -/
theorem resize_rescale_scales_witness :
    (0 : ℕ) < 100 ∧ (0 : ℕ) < 300 ∧ ((100 : ℕ) < 256 ∨ (300 : ℕ) < 256) ∧
    rescaleFactor 256 100 300 = 3 ∧
    (resize_rescale_info (fun (_ : PImage ℚ) _ _ _ _ => 0) ⟨300, 100, fun _ _ => 0⟩
      [((10 : ℚ), (10 : ℚ))] 256).1.h = 300 ∧
    (resize_rescale_info (fun (_ : PImage ℚ) _ _ _ _ => 0) ⟨300, 100, fun _ _ => 0⟩
      [((10 : ℚ), (10 : ℚ))] 256).1.w = 900 ∧
    (resize_rescale_info (fun (_ : PImage ℚ) _ _ _ _ => 0) ⟨300, 100, fun _ _ => 0⟩
      [((10 : ℚ), (10 : ℚ))] 256).2 = [((30 : ℚ), (30 : ℚ))] := by
  have h := resize_rescale_scales (fun (_ : PImage ℚ) _ _ _ _ => 0)
    ⟨300, 100, fun _ _ => 0⟩ [((10 : ℚ), (10 : ℚ))] 256 (show (0 : ℕ) < 100 by decide)
    (show (0 : ℕ) < 300 by decide) (Or.inl (show (100 : ℕ) < 256 by decide))
  obtain ⟨-, hfac, hconc⟩ := h
  obtain ⟨d1, d2, d3⟩ := hconc (fun _ _ => 0)
  exact ⟨by decide, by decide, Or.inl (by decide), hfac, d1, d2, d3⟩

/-- Zero-padded extension of an `h × w` map to `ℤ × ℤ`: the
`padding=kernel_size//2` zero padding of `nn.Conv2d` in `GaussianKernel`. -/
def zpad (h w : ℕ) (f : ℕ → ℕ → ℚ) (y x : ℤ) : ℚ :=
  if 0 ≤ y ∧ y < (h : ℤ) ∧ 0 ≤ x ∧ x < (w : ℤ) then f y.toNat x.toNat else 0

/-- Output length of `nn.Conv2d(1, 1, k, padding=k//2, bias=False)` applied
to an axis of length `n`; equal to `n` for odd `k`. -/
def outDim (n k : ℕ) : ℕ := n + 2 * (k / 2) + 1 - k

/-- `GaussianKernel.forward`: cross-correlation of the input with the
`k × k` weight array under zero padding `k//2` (the PyTorch convention),
one output entry. -/
def conv2dSame (k : ℕ) (ker : ℕ → ℕ → ℚ) (h w : ℕ) (f : ℕ → ℕ → ℚ)
    (i j : ℕ) : ℚ :=
  ∑ q ∈ Finset.range k ×ˢ Finset.range k,
    ker q.1 q.2 * zpad h w f ((i : ℤ) + q.1 - (k / 2 : ℕ)) ((j : ℤ) + q.2 - (k / 2 : ℕ))

/-- Total mass of the `k × k` kernel window. -/
def kerSum (k : ℕ) (ker : ℕ → ℕ → ℚ) : ℚ :=
  ∑ q ∈ Finset.range k ×ˢ Finset.range k, ker q.1 q.2

/-- Total mass of one density channel: the convolution output summed over
its whole output grid. -/
def channelSum (k h w : ℕ) (ker : ℕ → ℕ → ℚ) (f : ℕ → ℕ → ℚ) : ℚ :=
  ∑ p ∈ Finset.range (outDim h k) ×ˢ Finset.range (outDim w k),
    conv2dSame k ker h w f p.1 p.2

/-- The written cells as a finite set of integer coordinates. -/
def cellFinset (cs : List (ℕ × ℕ)) : Finset (ℤ × ℤ) :=
  (cs.map (fun c => ((c.1 : ℤ), (c.2 : ℤ)))).toFinset

theorem castPair_injective :
    Function.Injective (fun c : ℕ × ℕ => ((c.1 : ℤ), (c.2 : ℤ))) := by
  intro a b hab
  cases a
  cases b
  simp only [Prod.mk.injEq] at hab ⊢
  exact ⟨by exact_mod_cast hab.1, by exact_mod_cast hab.2⟩

theorem cellFinset_card_le (cs : List (ℕ × ℕ)) :
    (cellFinset cs).card ≤ cs.length := by
  unfold cellFinset
  calc (cs.map (fun c => ((c.1 : ℤ), (c.2 : ℤ)))).toFinset.card
      ≤ (cs.map (fun c => ((c.1 : ℤ), (c.2 : ℤ)))).length := cs.map _ |>.toFinset_card_le
    _ = cs.length := List.length_map _ _

theorem cellFinset_card_eq (cs : List (ℕ × ℕ)) (hnd : cs.Nodup) :
    (cellFinset cs).card = cs.length := by
  unfold cellFinset
  rw [List.toFinset_card_of_nodup (hnd.map castPair_injective), List.length_map]

theorem zpad_indicator (h w : ℕ) (cs : List (ℕ × ℕ))
    (hb : ∀ c ∈ cs, c.1 < h ∧ c.2 < w) (y x : ℤ) :
    zpad h w (cellIndicator cs) y x =
      if (y, x) ∈ cellFinset cs then 1 else 0 := by
  unfold zpad
  by_cases hin : 0 ≤ y ∧ y < (h : ℤ) ∧ 0 ≤ x ∧ x < (w : ℤ)
  · rw [if_pos hin]
    unfold cellIndicator
    have hmem : ((y.toNat, x.toNat) ∈ cs) ↔ ((y, x) ∈ cellFinset cs) := by
      unfold cellFinset
      rw [List.mem_toFinset, List.mem_map]
      constructor
      · intro hc
        refine ⟨(y.toNat, x.toNat), hc, ?_⟩
        simp only [Prod.mk.injEq]
        exact ⟨Int.toNat_of_nonneg hin.1, Int.toNat_of_nonneg hin.2.2.1⟩
      · rintro ⟨c, hc, hce⟩
        injection hce with h1 h2
        have hc1 : c.1 = y.toNat := by omega
        have hc2 : c.2 = x.toNat := by omega
        have : (y.toNat, x.toNat) = c := by
          rw [← hc1, ← hc2]
        rw [this]
        exact hc
    by_cases hcm : (y.toNat, x.toNat) ∈ cs
    · rw [if_pos hcm, if_pos (hmem.mp hcm)]
    · rw [if_neg hcm, if_neg (fun hz => hcm (hmem.mpr hz))]
  · rw [if_neg hin, if_neg]
    intro hz
    unfold cellFinset at hz
    rw [List.mem_toFinset, List.mem_map] at hz
    obtain ⟨c, hc, hce⟩ := hz
    obtain ⟨hch, hcw⟩ := hb c hc
    injection hce with h1 h2
    exact hin ⟨by omega, by omega, by omega, by omega⟩

theorem shift_sum_card (G : Finset (ℕ × ℕ)) (S : Finset (ℤ × ℤ)) (u v m : ℕ) :
    (∑ p ∈ G, if ((p.1 : ℤ) + u - m, (p.2 : ℤ) + v - m) ∈ S then (1 : ℚ) else 0)
      = (((G.image (fun p : ℕ × ℕ => ((p.1 : ℤ) + u - m, (p.2 : ℤ) + v - m))) ∩ S).card : ℚ) := by
  rw [← Finset.sum_filter, Finset.sum_const, nsmul_eq_mul, mul_one, Nat.cast_inj]
  apply Finset.card_bij (fun p _ => ((p.1 : ℤ) + u - m, (p.2 : ℤ) + v - m))
  · intro a ha
    rw [Finset.mem_filter] at ha
    rw [Finset.mem_inter]
    exact ⟨Finset.mem_image_of_mem _ ha.1, ha.2⟩
  · intro a ha b hb hab
    injection hab with h1 h2
    cases a
    cases b
    simp only [Prod.mk.injEq]
    exact ⟨by omega, by omega⟩
  · intro z hz
    rw [Finset.mem_inter, Finset.mem_image] at hz
    obtain ⟨⟨p, hp, hpe⟩, hzS⟩ := hz
    refine ⟨p, ?_, hpe⟩
    rw [Finset.mem_filter]
    refine ⟨hp, ?_⟩
    rw [hpe]
    exact hzS

theorem shift_image_full (h w k : ℕ) (cs : List (ℕ × ℕ))
    (hint : ∀ c ∈ cs, k / 2 ≤ c.1 ∧ c.1 + k / 2 < h ∧ k / 2 ≤ c.2 ∧ c.2 + k / 2 < w)
    (u v : ℕ) (hu : u < k) (hv : v < k) :
    cellFinset cs ⊆
      (Finset.range (outDim h k) ×ˢ Finset.range (outDim w k)).image
        (fun p : ℕ × ℕ => ((p.1 : ℤ) + u - (k / 2 : ℕ), (p.2 : ℤ) + v - (k / 2 : ℕ))) := by
  intro z hz
  unfold cellFinset at hz
  rw [List.mem_toFinset, List.mem_map] at hz
  obtain ⟨c, hc, hce⟩ := hz
  obtain ⟨h1, h2, h3, h4⟩ := hint c hc
  rw [Finset.mem_image]
  refine ⟨(c.1 + k / 2 - u, c.2 + k / 2 - v), ?_, ?_⟩
  · rw [Finset.mem_product]
    constructor <;> (rw [Finset.mem_range]; unfold outDim; omega)
  · rw [← hce]
    simp only [Prod.mk.injEq]
    constructor <;> omega

theorem channelSum_indicator (k h w : ℕ) (ker : ℕ → ℕ → ℚ) (cs : List (ℕ × ℕ))
    (hb : ∀ c ∈ cs, c.1 < h ∧ c.2 < w) :
    channelSum k h w ker (cellIndicator cs) =
      ∑ q ∈ Finset.range k ×ˢ Finset.range k,
        ker q.1 q.2 *
          ((((Finset.range (outDim h k) ×ˢ Finset.range (outDim w k)).image
              (fun p : ℕ × ℕ => ((p.1 : ℤ) + q.1 - (k / 2 : ℕ), (p.2 : ℤ) + q.2 - (k / 2 : ℕ))))
            ∩ cellFinset cs).card : ℚ) := by
  unfold channelSum conv2dSame
  rw [Finset.sum_comm]
  refine Finset.sum_congr rfl fun q hq => ?_
  rw [← Finset.mul_sum]
  congr 1
  rw [show (∑ p ∈ Finset.range (outDim h k) ×ˢ Finset.range (outDim w k),
        zpad h w (cellIndicator cs) ((p.1 : ℤ) + q.1 - (k / 2 : ℕ))
          ((p.2 : ℤ) + q.2 - (k / 2 : ℕ)))
      = ∑ p ∈ Finset.range (outDim h k) ×ˢ Finset.range (outDim w k),
          if ((p.1 : ℤ) + q.1 - (k / 2 : ℕ), (p.2 : ℤ) + q.2 - (k / 2 : ℕ)) ∈ cellFinset cs
            then (1 : ℚ) else 0 from
    Finset.sum_congr rfl fun p _ => zpad_indicator h w cs hb _ _]
  exact shift_sum_card _ (cellFinset cs) q.1 q.2 (k / 2)

/-- C3. Channel mass bound: with a non-negative kernel of total mass at most
one (per the spec, the Gaussian kernel's mass is `≤ 1`, lost only to
truncation), the total mass of the convolved channel is at most the number
of annotated points; and it equals the point count exactly when the kernel
mass is exactly one, no two points truncate to the same pixel, and no
point's cell lies within `k/2` of the image border. -/
theorem density_channel_mass (k h w : ℕ) (ker : ℕ → ℕ → ℚ)
    (locs : List (ℚ × ℚ)) (cs : List (ℕ × ℕ)) (dm : ℕ → ℕ → ℚ)
    (hker0 : ∀ u v, 0 ≤ ker u v)
    (hker1 : kerSum k ker ≤ 1)
    (hcells : cellsOf h w locs = some cs)
    (hdm : create_dot_map locs h w = some dm) :
    channelSum k h w ker dm ≤ (locs.length : ℚ) ∧
    (kerSum k ker = 1 → cs.Nodup →
      (∀ c ∈ cs, k / 2 ≤ c.1 ∧ c.1 + k / 2 < h ∧ k / 2 ≤ c.2 ∧ c.2 + k / 2 < w) →
      channelSum k h w ker dm = (locs.length : ℚ)) := by
  have hdm' : dm = cellIndicator cs := by
    have h1 := create_dot_map_eq locs h w cs hcells
    rw [hdm] at h1
    injection h1
  subst hdm'
  have hb := cellsOf_lt h w locs cs hcells
  have hlen := cellsOf_length h w locs cs hcells
  have hmain := channelSum_indicator k h w ker cs hb
  have hcard0 : (0 : ℚ) ≤ ((cellFinset cs).card : ℚ) := by positivity
  constructor
  · rw [hmain]
    calc ∑ q ∈ Finset.range k ×ˢ Finset.range k,
          ker q.1 q.2 *
            ((((Finset.range (outDim h k) ×ˢ Finset.range (outDim w k)).image
                (fun p : ℕ × ℕ => ((p.1 : ℤ) + q.1 - (k / 2 : ℕ), (p.2 : ℤ) + q.2 - (k / 2 : ℕ))))
              ∩ cellFinset cs).card : ℚ)
        ≤ ∑ q ∈ Finset.range k ×ˢ Finset.range k,
            ker q.1 q.2 * ((cellFinset cs).card : ℚ) := by
          refine Finset.sum_le_sum fun q _ => ?_
          refine mul_le_mul_of_nonneg_left ?_ (hker0 _ _)
          exact_mod_cast Finset.card_le_card Finset.inter_subset_right
      _ = kerSum k ker * ((cellFinset cs).card : ℚ) := by
          rw [kerSum, Finset.sum_mul]
      _ ≤ 1 * ((cellFinset cs).card : ℚ) :=
          mul_le_mul_of_nonneg_right hker1 hcard0
      _ = ((cellFinset cs).card : ℚ) := one_mul _
      _ ≤ (cs.length : ℚ) := by exact_mod_cast cellFinset_card_le cs
      _ = (locs.length : ℚ) := by rw [hlen]
  · intro hk1 hnd hint
    rw [hmain]
    calc ∑ q ∈ Finset.range k ×ˢ Finset.range k,
          ker q.1 q.2 *
            ((((Finset.range (outDim h k) ×ˢ Finset.range (outDim w k)).image
                (fun p : ℕ × ℕ => ((p.1 : ℤ) + q.1 - (k / 2 : ℕ), (p.2 : ℤ) + q.2 - (k / 2 : ℕ))))
              ∩ cellFinset cs).card : ℚ)
        = ∑ q ∈ Finset.range k ×ˢ Finset.range k,
            ker q.1 q.2 * ((cellFinset cs).card : ℚ) := by
          refine Finset.sum_congr rfl fun q hq => ?_
          rw [Finset.mem_product, Finset.mem_range, Finset.mem_range] at hq
          rw [Finset.inter_eq_right.mpr
            (shift_image_full h w k cs hint q.1 q.2 hq.1 hq.2)]
      _ = kerSum k ker * ((cellFinset cs).card : ℚ) := by
          rw [kerSum, Finset.sum_mul]
      _ = 1 * ((cellFinset cs).card : ℚ) := by rw [hk1]
      _ = ((cellFinset cs).card : ℚ) := one_mul _
      _ = (cs.length : ℚ) := by exact_mod_cast cellFinset_card_eq cs hnd
      _ = (locs.length : ℚ) := by rw [hlen]

/-- Witness for C3 at a concrete configuration: a unit `1 × 1` kernel and a
single interior point on a `3 × 3` map, where the channel mass equals the
point count exactly. -/
theorem density_channel_mass_witness :
    cellsOf 3 3 [((2 : ℚ), (1 : ℚ))] = some [(1, 2)] ∧
    kerSum 1 (fun _ _ => (1 : ℚ)) = 1 ∧
    channelSum 1 3 3 (fun _ _ => (1 : ℚ)) (cellIndicator [(1, 2)]) ≤
      (([((2 : ℚ), (1 : ℚ))] : List (ℚ × ℚ)).length : ℚ) ∧
    channelSum 1 3 3 (fun _ _ => (1 : ℚ)) (cellIndicator [(1, 2)]) =
      (([((2 : ℚ), (1 : ℚ))] : List (ℚ × ℚ)).length : ℚ) := by
  have hpc : pointCell 3 3 ((2 : ℚ), (1 : ℚ)) = some (1, 2) := by
    unfold pointCell
    rw [show pyInt ((2 : ℚ), (1 : ℚ)).2 = 1 from pyInt_one,
      show pyInt ((2 : ℚ), (1 : ℚ)).1 = 2 from pyInt_two,
      npIndex_of_range 3 1 (by decide) (by decide),
      npIndex_of_range 3 2 (by decide) (by decide)]
    rfl
  have hcells : cellsOf 3 3 [((2 : ℚ), (1 : ℚ))] = some [(1, 2)] := by
    simp [cellsOf, hpc]
  have hks : kerSum 1 (fun _ _ => (1 : ℚ)) = 1 := by
    unfold kerSum
    rw [Finset.sum_product]
    simp
  have hthm := density_channel_mass 1 3 3 (fun _ _ => (1 : ℚ))
    [((2 : ℚ), (1 : ℚ))] [(1, 2)] (cellIndicator [(1, 2)])
    (fun _ _ => zero_le_one) (le_of_eq hks) hcells
    (create_dot_map_eq _ 3 3 _ hcells)
  exact ⟨hcells, hks, hthm.1,
    hthm.2 hks (by simp) (by intro c hc; simp at hc; subst hc; decide)⟩

end CrowdCount
